import Mathlib

/-!
# Verification of the blendend core algorithms

Shallow embedding of the three core components of the repository:

* the xoshiro256** / splitmix64 pseudorandom engine (`c_src/rand/rand.cpp`),
* the path flattener (`c_src/geometries/path.cpp`, `flattenPath`),
* the separable three-pass box blur (`c_src/images/blur.cpp`).

Machine 64-bit words are modelled as `Nat` reduced modulo `2^64` at every
operation that can overflow.  Doubles used by the blur and the flattener are
modelled as exact rationals (`ℚ`); comparisons of the form
`area2 / sqrt len2 ≤ tol` are expressed by the equivalent square-free
rational inequalities.  The ziggurat normal sampler operates on IEEE
doubles with tables (`ziggurat_tables.h`) that are not part of the
source tree, so the sampler is abstracted as an explicit deterministic
state-passing function; all control flow around it (seeding, batch
loops, bound checks) is embedded from the source.
-/

namespace Blendend

/-! ## Pseudorandom engine (`c_src/rand/rand.cpp`) -/

/-- 2^64, the modulus of the 64-bit word arithmetic. -/
def M64 : ℕ := 2 ^ 64

/-- `rotl(x, k) = (x << k) | (x >> (64 - k))` on 64-bit words. -/
def rotl (x : ℕ) (k : ℕ) : ℕ :=
  ((x <<< k) ||| (x >>> (64 - k))) % M64

/-- `splitmix64`: advances the seed by the golden-ratio increment and
returns the mixed output.  Result is `(updated seed, output z)`. -/
def splitmix64 (seed : ℕ) : ℕ × ℕ :=
  let seed' := (seed + 0x9E3779B97F4A7C15) % M64
  let z1 := seed'
  let z2 := ((z1 ^^^ (z1 >>> 30)) * 0xBF58476D1CE4E5B9) % M64
  let z3 := ((z2 ^^^ (z2 >>> 27)) * 0x94D049BB133111EB) % M64
  (seed', z3 ^^^ (z3 >>> 31))

/-- The four 64-bit state words of xoshiro256**. -/
structure RandState where
  s0 : ℕ
  s1 : ℕ
  s2 : ℕ
  s3 : ℕ
  deriving DecidableEq, Repr

/-- `rand_seed`: fills the four state words with four successive
`splitmix64` outputs (`for i in 0..3: s[i] = splitmix64(seed)`).  The
source loop has the constant bound 4; it is unrolled here, threading the
mutated seed word through the iterations. -/
def rand_seed (v : ℕ) : RandState :=
  let p1 := splitmix64 (v % M64)
  let p2 := splitmix64 p1.1
  let p3 := splitmix64 p2.1
  let p4 := splitmix64 p3.1
  ⟨p1.2, p2.2, p3.2, p4.2⟩

/-- `rand_u64`: one step of xoshiro256**.  Returns `(output, new state)`. -/
def rand_u64 (st : RandState) : ℕ × RandState :=
  let result := (rotl ((st.s1 * 5) % M64) 7 * 9) % M64
  let t := (st.s1 <<< 17) % M64
  let s2a := st.s2 ^^^ st.s0
  let s3a := st.s3 ^^^ st.s1
  let s1b := st.s1 ^^^ s2a
  let s0b := st.s0 ^^^ s3a
  let s2b := s2a ^^^ t
  let s3b := rotl s3a 45
  (result, ⟨s0b, s1b, s2b, s3b⟩)

/-- `rand_u63`: `rand_u64` with the top bit cleared. -/
def rand_u63 (st : RandState) : ℕ × RandState :=
  let p := rand_u64 st
  (p.1 &&& 0x7fffffffffffffff, p.2)

/-- Specification-side description of seeding (written from the spec): the
four state words are exactly four successive iterations of `splitmix64`
over a mutable copy of the seed value. -/
def seedSpec (v : ℕ) : RandState :=
  let i1 := splitmix64 (v % M64)
  let i2 := splitmix64 i1.1
  let i3 := splitmix64 i2.1
  let i4 := splitmix64 i3.1
  ⟨i1.2, i2.2, i3.2, i4.2⟩

/-- Specification-side description of one generator step (written from the
spec): output `rotl(s1*5, 7)*9` from the pre-update `s1`; then
`t = s1<<17` (pre-update `s1`), `s2^=s0; s3^=s1; s1^=s2; s0^=s3; s2^=t;
s3=rotl(s3,45)`. -/
def xoshiroStepSpec (st : RandState) : ℕ × RandState :=
  let out := (rotl ((st.s1 * 5) % M64) 7 * 9) % M64
  let t := (st.s1 <<< 17) % M64
  let s2' := st.s2 ^^^ st.s0
  let s3' := st.s3 ^^^ st.s1
  let s1' := st.s1 ^^^ s2'
  let s0' := st.s0 ^^^ s3'
  let s2'' := s2' ^^^ t
  let s3'' := rotl s3' 45
  (out, ⟨s0', s1', s2'', s3''⟩)

/-! ### Batch sampling (`rand_normal_batch`)

The normal sampler itself computes on IEEE doubles with external tables,
so it enters the model as an arbitrary deterministic state-passing
function `normal` together with a serializer `toLE` producing the
little-endian `f32` bytes of a sample. -/

/-- Draw `n` samples in index order, threading the generator state. -/
def drawN {α : Type} (normal : RandState → α × RandState) :
    ℕ → RandState → List α × RandState
  | 0, st => ([], st)
  | n + 1, st =>
    let p := normal st
    let q := drawN normal n p.2
    (p.1 :: q.1, q.2)

/-- Errors of the batch entry point that concern the core algorithm. -/
inductive RandErr where
  | countTooLarge
  deriving DecidableEq, Repr

/-- `rand_normal_batch`: `count = 0` returns an empty binary; a count
exceeding `sizeMax / sizeof(float)` (with `sizeMax` the platform's
maximum `size_t` value) is rejected; otherwise `count`
samples are drawn in index order and serialized as consecutive
little-endian `f32` values.  Returns the result together with the state
after the call. -/
def rand_normal_batch {α : Type} (normal : RandState → α × RandState)
    (toLE : α → List ℕ) (sizeMax : ℕ) (st : RandState) (count : ℕ) :
    Except RandErr (List ℕ) × RandState :=
  if count = 0 then (.ok [], st)
  else if count > sizeMax / 4 then (.error .countTooLarge, st)
  else
    let p := drawN normal count st
    (.ok (p.1.flatMap toLE), p.2)

/-- A full scenario: seed once, then make the given sequence of batch
calls in order, collecting each call's result. -/
def runNormalSeq {α : Type} (normal : RandState → α × RandState)
    (toLE : α → List ℕ) (sizeMax : ℕ) (v : ℕ) (counts : List ℕ) :
    List (Except RandErr (List ℕ)) :=
  (counts.foldl
    (fun acc c =>
      let r := rand_normal_batch normal toLE sizeMax acc.2 c
      (acc.1 ++ [r.1], r.2))
    (([] : List (Except RandErr (List ℕ))), rand_seed v)).1

end Blendend

namespace Blendend

/-- `drawN` draws exactly `n` samples. -/
theorem drawN_length {α : Type} (normal : RandState → α × RandState) :
    ∀ (n : ℕ) (st : RandState), (drawN normal n st).1.length = n := by
  intro n
  induction n with
  | zero => intro st; rfl
  | succ m ih =>
    intro st
    simp [drawN, ih]

/-- C1: seeding is exactly four successive splitmix64 iterations, and one
generator step returns `rotl(s1*5,7)*9` from the pre-update `s1` and
performs the standard xoshiro256** scramble with `t = s1<<17` taken from
the pre-update `s1`. -/
theorem c1_seed_and_step (v : ℕ) (st : RandState) :
    rand_seed v = seedSpec v ∧ rand_u64 st = xoshiroStepSpec st :=
  ⟨rfl, rfl⟩

/-- C2: for a fixed seed value and a fixed sequence of batch-sample calls,
two runs that each start from a fresh state seeded with the same value
and make the same calls in the same order produce identical outputs.
The embedding makes the whole engine a pure function of the seed and the
call list (the `RandState` is the only state the source consults), so the
two runs coincide definitionally for every sampler instantiation. -/
theorem c2_batch_determinism {α : Type} (normal : RandState → α × RandState)
    (toLE : α → List ℕ) (sizeMax : ℕ) (v : ℕ) (counts : List ℕ) :
    runNormalSeq normal toLE sizeMax v counts
      = runNormalSeq normal toLE sizeMax v counts :=
  rfl

/-- C9: the batch sampler returns an empty sequence for `count = 0`; a
count whose byte size `count * 4` exceeds the platform's maximum
addressable size returns `CountTooLarge` with the state untouched; and
in all non-error cases it returns exactly `count` serialized samples
drawn in index order. -/
theorem c9_batch_boundaries {α : Type} (normal : RandState → α × RandState)
    (toLE : α → List ℕ) (sizeMax : ℕ) (st : RandState) (count : ℕ) :
    rand_normal_batch normal toLE sizeMax st 0 = (.ok [], st)
    ∧ (count * 4 > sizeMax →
        rand_normal_batch normal toLE sizeMax st count
          = (.error .countTooLarge, st))
    ∧ (count ≠ 0 → count * 4 ≤ sizeMax →
        rand_normal_batch normal toLE sizeMax st count
          = (.ok ((drawN normal count st).1.flatMap toLE),
             (drawN normal count st).2)
          ∧ (drawN normal count st).1.length = count) := by
  have hdiv : sizeMax / 4 < count ↔ sizeMax < count * 4 :=
    Nat.div_lt_iff_lt_mul (by norm_num)
  refine ⟨rfl, ?_, ?_⟩
  · intro hbig
    have hne : count ≠ 0 := by
      rintro rfl
      simp at hbig
    have : sizeMax / 4 < count := hdiv.mpr hbig
    simp [rand_normal_batch, hne, this]
  · intro hne hsmall
    have : ¬ sizeMax / 4 < count := by
      intro h
      exact absurd (hdiv.mp h) (not_lt.mpr hsmall)
    refine ⟨?_, drawN_length normal count st⟩
    simp [rand_normal_batch, hne, this]

/-- Witness for C9: the error branch at `sizeMax = 7`, `count = 2`, and the
non-error branch at `sizeMax = 100`, `count = 2`, with a concrete trivial
sampler. -/
theorem c9_batch_boundaries_witness :
    rand_normal_batch (fun s => ((0 : ℕ), s)) (fun _ => [0, 0, 0, 0]) 7
        ⟨1, 2, 3, 4⟩ 2 = (.error .countTooLarge, ⟨1, 2, 3, 4⟩)
    ∧ rand_normal_batch (fun s => ((0 : ℕ), s)) (fun _ => [0, 0, 0, 0]) 100
        ⟨1, 2, 3, 4⟩ 2 = (.ok [0, 0, 0, 0, 0, 0, 0, 0], ⟨1, 2, 3, 4⟩) := by
  constructor
  · exact (c9_batch_boundaries (fun s => ((0 : ℕ), s)) (fun _ => [0, 0, 0, 0])
      7 ⟨1, 2, 3, 4⟩ 2).2.1 (by norm_num)
  · have h := (c9_batch_boundaries (fun s => ((0 : ℕ), s)) (fun _ => [0, 0, 0, 0])
      100 ⟨1, 2, 3, 4⟩ 2).2.2 (by norm_num) (by norm_num)
    rw [h.1]
    simp [drawN]

end Blendend

namespace Blendend

/-! ## Path flattener (`c_src/geometries/path.cpp`, `flattenPath`)

Coordinates are modelled as exact rationals.  The source compares
`flatness ≤ tol` where `flatness = area2 / sqrt len2`; over `ℚ` the same
comparison is expressed square-free as `0 ≤ tol ∧ area2^2 ≤ tol^2 * len2`
(the two are equivalent over the reals because `area2 ≥ 0` and
`sqrt len2 > 0`).  The recursive subdivision of the source has no depth
guard and can diverge (e.g. for `tol < 0`); the embedding gives it
explicit fuel and emits the segment endpoint when the fuel runs out,
which no theorem below depends on. -/

/-- A 2-D point. -/
abbrev Point : Type := ℚ × ℚ

/-- Path command kinds: `BL_PATH_CMD_MOVE / ON / QUAD / CUBIC / CLOSE`;
`other` stands for any further command value (e.g. conic), which the
flattener ignores. -/
inductive CmdKind where
  | move
  | onCmd
  | quad
  | cubic
  | close
  | other
  deriving DecidableEq, Repr

/-- One (command, vertex) pair of the source path. -/
abbrev PathCmd : Type := CmdKind × Point

/-- Output commands of the flattened path. -/
inductive OutCmd where
  | moveTo (p : Point)
  | lineTo (p : Point)
  | closeCmd
  deriving DecidableEq, Repr

/-- The flattener's only failure (`BL_ERROR_INVALID_STATE`, surfaced by
the binding as `MalformedCurve`). -/
inductive FlatErr where
  | malformedCurve
  deriving DecidableEq, Repr

/-- `mix(a, b, t)`: linear interpolation of two points. -/
def mix (a b : Point) (t : ℚ) : Point :=
  (a.1 + (b.1 - a.1) * t, a.2 + (b.2 - a.2) * t)

/-- `quadFlatness p0 p1 p2 ≤ tol`, square-free: the distance of the
control point from the chord `p0p2` (zero for a zero-length chord). -/
def quadIsFlat (p0 p1 p2 : Point) (tol : ℚ) : Bool :=
  let ux := p2.1 - p0.1
  let uy := p2.2 - p0.2
  let vx := p1.1 - p0.1
  let vy := p1.2 - p0.2
  let area2 := abs (ux * vy - uy * vx)
  let len2 := ux * ux + uy * uy
  if 0 < len2 then decide (0 ≤ tol ∧ area2 ^ 2 ≤ tol ^ 2 * len2)
  else decide (0 ≤ tol)

/-- `cubicFlatness p0 p1 p2 p3 ≤ tol`, square-free: the maximum of the two
control points' distances from the chord `p0p3`. -/
def cubicIsFlat (p0 p1 p2 p3 : Point) (tol : ℚ) : Bool :=
  let ux := p3.1 - p0.1
  let uy := p3.2 - p0.2
  let len2 := ux * ux + uy * uy
  if len2 = 0 then decide (0 ≤ tol)
  else
    let a1 := abs (ux * (p1.2 - p0.2) - uy * (p1.1 - p0.1))
    let a2 := abs (ux * (p2.2 - p0.2) - uy * (p2.1 - p0.1))
    decide (0 ≤ tol ∧ a1 ^ 2 ≤ tol ^ 2 * len2 ∧ a2 ^ 2 ≤ tol ^ 2 * len2)

/-- `flattenQuadRecursive`: subdivide at the parametric midpoint until the
flatness test passes, emitting `line_to` commands.  The source recursion
is unguarded; `fuel` bounds the depth here, emitting the endpoint when
exhausted. -/
def flattenQuadRec : ℕ → Point → Point → Point → ℚ → List OutCmd
  | 0, _, _, p2, _ => [.lineTo p2]
  | fuel + 1, p0, p1, p2, tol =>
    if quadIsFlat p0 p1 p2 tol then [.lineTo p2]
    else
      let p01 := mix p0 p1 (1 / 2)
      let p12 := mix p1 p2 (1 / 2)
      let p012 := mix p01 p12 (1 / 2)
      flattenQuadRec fuel p0 p01 p012 tol ++ flattenQuadRec fuel p012 p12 p2 tol

/-- `flattenCubicRecursive`: midpoint subdivision of a cubic, with fuel as
for `flattenQuadRec`. -/
def flattenCubicRec : ℕ → Point → Point → Point → Point → ℚ → List OutCmd
  | 0, _, _, _, p3, _ => [.lineTo p3]
  | fuel + 1, p0, p1, p2, p3, tol =>
    if cubicIsFlat p0 p1 p2 p3 tol then [.lineTo p3]
    else
      let p01 := mix p0 p1 (1 / 2)
      let p12 := mix p1 p2 (1 / 2)
      let p23 := mix p2 p3 (1 / 2)
      let p012 := mix p01 p12 (1 / 2)
      let p123 := mix p12 p23 (1 / 2)
      let p0123 := mix p012 p123 (1 / 2)
      flattenCubicRec fuel p0 p01 p012 p0123 tol
        ++ flattenCubicRec fuel p0123 p123 p23 p3 tol

/-- The scan loop of `flattenPath`: walks the command stream carrying the
last on-curve point, the current subpath start and whether a subpath is
open.  A `quad` must be followed by an `on` vertex, a `cubic` by another
`cubic` and an `on` (else `BL_ERROR_INVALID_STATE`); `close` with no open
subpath is a no-op; unknown commands are skipped. -/
def flattenGo (tol : ℚ) (fuel : ℕ) :
    List PathCmd → Point → Point → Bool → Except FlatErr (List OutCmd)
  | [], _, _, _ => .ok []
  | (cmd, v) :: rest, lastOn, subStart, hasSub =>
    match cmd with
    | .move =>
      match flattenGo tol fuel rest v v true with
      | .error e => .error e
      | .ok out => .ok (.moveTo v :: out)
    | .onCmd =>
      match flattenGo tol fuel rest v subStart hasSub with
      | .error e => .error e
      | .ok out => .ok (.lineTo v :: out)
    | .quad =>
      match rest with
      | [] => .error .malformedCurve
      | (k2, p2) :: rest2 =>
        if k2 = .onCmd then
          match flattenGo tol fuel rest2 p2 subStart hasSub with
          | .error e => .error e
          | .ok out => .ok (flattenQuadRec fuel lastOn v p2 tol ++ out)
        else .error .malformedCurve
    | .cubic =>
      match rest with
      | [] => .error .malformedCurve
      | [_] => .error .malformedCurve
      | (k2, p2) :: (k3, p3) :: rest2 =>
        if k2 = .cubic ∧ k3 = .onCmd then
          match flattenGo tol fuel rest2 p3 subStart hasSub with
          | .error e => .error e
          | .ok out => .ok (flattenCubicRec fuel lastOn v p2 p3 tol ++ out)
        else .error .malformedCurve
    | .close =>
      if hasSub then
        match flattenGo tol fuel rest subStart subStart hasSub with
        | .error e => .error e
        | .ok out => .ok (.closeCmd :: out)
      else flattenGo tol fuel rest lastOn subStart hasSub
    | .other => flattenGo tol fuel rest lastOn subStart hasSub

/-- Depth bound handed to the curve subdivision (the source recursion is
unbounded; see the module comment). -/
def flattenFuel : ℕ := 64

/-- `flattenPath`: scan from the origin with no open subpath. -/
def flattenPath (src : List PathCmd) (tol : ℚ) : Except FlatErr (List OutCmd) :=
  flattenGo tol flattenFuel src (0, 0) (0, 0) false

/-- Modelled from the spec: the host-side wrapper of `path_flatten` (not
part of `src/`) supplies the default tolerance `0.25` when the caller
omits it. -/
def flatten_default (src : List PathCmd) : Except FlatErr (List OutCmd) :=
  flattenPath src (1 / 4)

/-- The structural well-formedness grammar of a command stream: `quad`
must be immediately followed by `on`; `cubic` by exactly one more `cubic`
and then `on`; all other commands stand alone. -/
inductive WellFormed : List PathCmd → Prop where
  | nil : WellFormed []
  | move (p : Point) {r : List PathCmd} : WellFormed r → WellFormed ((.move, p) :: r)
  | onCmd (p : Point) {r : List PathCmd} : WellFormed r → WellFormed ((.onCmd, p) :: r)
  | close (p : Point) {r : List PathCmd} : WellFormed r → WellFormed ((.close, p) :: r)
  | other (p : Point) {r : List PathCmd} : WellFormed r → WellFormed ((.other, p) :: r)
  | quad (p q : Point) {r : List PathCmd} :
      WellFormed r → WellFormed ((.quad, p) :: (.onCmd, q) :: r)
  | cubic (p q u : Point) {r : List PathCmd} :
      WellFormed r → WellFormed ((.cubic, p) :: (.cubic, q) :: (.onCmd, u) :: r)

/-- The image of a pure polyline under flattening: `move` ↦ `move-to`,
`on` ↦ `line-to`, `close` ↦ `close`. -/
def polyImage (l : List PathCmd) : List OutCmd :=
  l.flatMap fun c =>
    match c with
    | (.move, p) => [.moveTo p]
    | (.onCmd, p) => [.lineTo p]
    | (.close, _) => [.closeCmd]
    | _ => []

/-- A stream containing only `move`, `on` and `close` commands. -/
def isPolyline (l : List PathCmd) : Bool :=
  l.all fun c =>
    match c.1 with
    | .move => true
    | .onCmd => true
    | .close => true
    | _ => false

/-- Every `close` in the stream is preceded by some earlier `move`. -/
def closeAfterMove : List PathCmd → Bool
  | [] => true
  | (k, _) :: r =>
    match k with
    | .move => true
    | .close => false
    | _ => closeAfterMove r

/-- Inversion: the empty stream is well-formed. -/
@[simp] theorem wf_nil_iff : WellFormed ([] : List PathCmd) ↔ True :=
  ⟨fun _ => trivial, fun _ => WellFormed.nil⟩

/-- Inversion for a leading `move`. -/
@[simp] theorem wf_move_iff (p : Point) (r : List PathCmd) :
    WellFormed ((CmdKind.move, p) :: r) ↔ WellFormed r := by
  constructor
  · intro h
    cases h with
    | move _ hr => exact hr
  · exact WellFormed.move p

/-- Inversion for a leading `on`. -/
@[simp] theorem wf_on_iff (p : Point) (r : List PathCmd) :
    WellFormed ((CmdKind.onCmd, p) :: r) ↔ WellFormed r := by
  constructor
  · intro h
    cases h with
    | onCmd _ hr => exact hr
  · exact WellFormed.onCmd p

/-- Inversion for a leading `close`. -/
@[simp] theorem wf_close_iff (p : Point) (r : List PathCmd) :
    WellFormed ((CmdKind.close, p) :: r) ↔ WellFormed r := by
  constructor
  · intro h
    cases h with
    | close _ hr => exact hr
  · exact WellFormed.close p

/-- Inversion for a leading unknown command. -/
@[simp] theorem wf_other_iff (p : Point) (r : List PathCmd) :
    WellFormed ((CmdKind.other, p) :: r) ↔ WellFormed r := by
  constructor
  · intro h
    cases h with
    | other _ hr => exact hr
  · exact WellFormed.other p

/-- Inversion for a leading `quad`: the next command must be `on`. -/
@[simp] theorem wf_quad_iff (p : Point) (l : List PathCmd) :
    WellFormed ((CmdKind.quad, p) :: l)
      ↔ ∃ q r, l = (CmdKind.onCmd, q) :: r ∧ WellFormed r := by
  constructor
  · intro h
    cases h with
    | quad _ q hr => exact ⟨q, _, rfl, hr⟩
  · rintro ⟨q, r, rfl, hr⟩
    exact WellFormed.quad p q hr

/-- Inversion for a leading `cubic`: exactly one more `cubic` then `on`. -/
@[simp] theorem wf_cubic_iff (p : Point) (l : List PathCmd) :
    WellFormed ((CmdKind.cubic, p) :: l)
      ↔ ∃ q u r, l = (CmdKind.cubic, q) :: (CmdKind.onCmd, u) :: r ∧ WellFormed r := by
  constructor
  · intro h
    cases h with
    | cubic _ q u hr => exact ⟨q, u, _, rfl, hr⟩
  · rintro ⟨q, u, r, rfl, hr⟩
    exact WellFormed.cubic p q u hr

/-- The scan errors exactly on streams that violate the structural
grammar, for every tolerance, fuel and scan state. -/
theorem flattenGo_error_iff (tol : ℚ) (fuel : ℕ) :
    ∀ (l : List PathCmd) (a b : Point) (hs : Bool),
      flattenGo tol fuel l a b hs = .error .malformedCurve ↔ ¬ WellFormed l := by
  intro l a b hs
  induction l, a, b, hs using flattenGo.induct tol fuel with
  | case1 => simp [flattenGo]
  | case2 v rest lastOn subStart hasSub e heq ih =>
    cases e
    have hnw := ih.mp heq
    simp [flattenGo, heq, hnw]
  | case3 v rest lastOn subStart hasSub out heq ih =>
    have hwf : WellFormed rest := by
      by_contra hn
      have h2 := ih.mpr hn
      rw [heq] at h2
      cases h2
    simp [flattenGo, heq, hwf]
  | case4 v rest lastOn subStart hasSub e heq ih =>
    cases e
    have hnw := ih.mp heq
    simp [flattenGo, heq, hnw]
  | case5 v rest lastOn subStart hasSub out heq ih =>
    have hwf : WellFormed rest := by
      by_contra hn
      have h2 := ih.mpr hn
      rw [heq] at h2
      cases h2
    simp [flattenGo, heq, hwf]
  | case6 v lastOn subStart hasSub => simp [flattenGo]
  | case7 v lastOn subStart hasSub p2 rest2 e heq ih =>
    cases e
    have hnw := ih.mp heq
    simp [flattenGo, heq, hnw]
  | case8 v lastOn subStart hasSub p2 rest2 out heq ih =>
    have hwf : WellFormed rest2 := by
      by_contra hn
      have h2 := ih.mpr hn
      rw [heq] at h2
      cases h2
    simp [flattenGo, heq, hwf]
    exact ⟨p2.1, p2.2, rfl⟩
  | case9 v lastOn subStart hasSub k2 p2 rest2 hne =>
    simp [flattenGo, hne]
  | case10 v lastOn subStart hasSub => simp [flattenGo]
  | case11 v lastOn subStart hasSub head =>
    simp [flattenGo]
  | case12 v lastOn subStart hasSub k2 p2 k3 p3 rest2 hkk e heq ih =>
    obtain ⟨hk2, hk3⟩ := hkk
    subst hk2
    subst hk3
    cases e
    have hnw := ih.mp heq
    simp [flattenGo, heq, hnw]
  | case13 v lastOn subStart hasSub k2 p2 k3 p3 rest2 hkk out heq ih =>
    obtain ⟨hk2, hk3⟩ := hkk
    subst hk2
    subst hk3
    have hwf : WellFormed rest2 := by
      by_contra hn
      have h2 := ih.mpr hn
      rw [heq] at h2
      cases h2
    simp [flattenGo, heq, hwf]
    exact ⟨⟨p2.1, p2.2, rfl⟩, ⟨p3.1, p3.2, rfl⟩⟩
  | case14 v lastOn subStart hasSub k2 p2 k3 p3 rest2 hne =>
    simp only [flattenGo]
    rw [if_neg hne]
    constructor
    · intro _ hw
      cases hw with
      | cubic _ q u hr => exact hne ⟨rfl, rfl⟩
    · intro _
      rfl
  | case15 v rest lastOn subStart e heq ih =>
    cases e
    have hnw := ih.mp heq
    simp [flattenGo, heq, hnw]
  | case16 v rest lastOn subStart out heq ih =>
    have hwf : WellFormed rest := by
      by_contra hn
      have h2 := ih.mpr hn
      rw [heq] at h2
      cases h2
    simp [flattenGo, heq, hwf]
  | case17 v rest lastOn subStart hasSub hne ih =>
    have hsf : hasSub = false := by
      cases hasSub
      · rfl
      · exact absurd rfl hne
    subst hsf
    simp [flattenGo, ih]
  | case18 v rest lastOn subStart hasSub ih =>
    simp [flattenGo, ih]

/-- C4: `flatten` fails with `MalformedCurve` exactly when a `quad`
command is not immediately followed by an `on` command, or a `cubic`
command is not immediately followed by exactly one more `cubic` and then
an `on` (the structural grammar `WellFormed`); in particular on
well-formed streams the curve commands never produce this error. -/
theorem c4_malformed_iff (src : List PathCmd) (tol : ℚ) :
    flattenPath src tol = .error .malformedCurve ↔ ¬ WellFormed src :=
  flattenGo_error_iff tol flattenFuel src (0, 0) (0, 0) false

/-- C6: with the defaulted tolerance `0.25`, flattening succeeds on every
well-formed stream. -/
theorem c6_default_tolerance (src : List PathCmd) (h : WellFormed src) :
    (flatten_default src).isOk = true := by
  cases hr : flatten_default src with
  | ok out => rfl
  | error e =>
    cases e
    exact absurd ((c4_malformed_iff src (1 / 4)).mp hr) (not_not.mpr h)

/-- Witness for C6: a concrete well-formed stream with a quadratic curve
flattens successfully at the default tolerance. -/
theorem c6_default_tolerance_witness :
    (flatten_default
      [(CmdKind.move, ((0 : ℚ), (0 : ℚ))), (CmdKind.quad, ((1 : ℚ), (1 : ℚ))),
       (CmdKind.onCmd, ((2 : ℚ), (0 : ℚ))), (CmdKind.close, ((0 : ℚ), (0 : ℚ)))]).isOk
      = true :=
  c6_default_tolerance _
    (WellFormed.move _ (WellFormed.quad _ _ (WellFormed.close _ WellFormed.nil)))

/-- With an open subpath, the scan maps a pure polyline to its image
commands one for one. -/
theorem flattenGo_polyline_open (tol : ℚ) (fuel : ℕ) :
    ∀ (l : List PathCmd) (a b : Point), isPolyline l = true →
      flattenGo tol fuel l a b true = .ok (polyImage l) := by
  intro l
  induction l with
  | nil => intro a b _; rfl
  | cons c r ih =>
    intro a b hp
    obtain ⟨k, p⟩ := c
    cases k
    · have hr : isPolyline r = true := by simpa [isPolyline] using hp
      simp [flattenGo, ih p p hr, polyImage]
    · have hr : isPolyline r = true := by simpa [isPolyline] using hp
      simp [flattenGo, ih p b hr, polyImage]
    · simp [isPolyline] at hp
    · simp [isPolyline] at hp
    · have hr : isPolyline r = true := by simpa [isPolyline] using hp
      simp [flattenGo, ih b b hr, polyImage]
    · simp [isPolyline] at hp

/-- Before any `move`, a polyline whose every `close` is preceded by a
`move` also maps one for one (no `close` can occur yet, so the closed
flag never matters). -/
theorem flattenGo_polyline_closed (tol : ℚ) (fuel : ℕ) :
    ∀ (l : List PathCmd) (a b : Point), isPolyline l = true →
      closeAfterMove l = true →
      flattenGo tol fuel l a b false = .ok (polyImage l) := by
  intro l
  induction l with
  | nil => intro a b _ _; rfl
  | cons c r ih =>
    intro a b hp hc
    obtain ⟨k, p⟩ := c
    cases k
    · have hr : isPolyline r = true := by simpa [isPolyline] using hp
      simp [flattenGo, flattenGo_polyline_open tol fuel r p p hr, polyImage]
    · have hr : isPolyline r = true := by simpa [isPolyline] using hp
      have hcr : closeAfterMove r = true := hc
      simp [flattenGo, ih p b hr hcr, polyImage]
    · simp [isPolyline] at hp
    · simp [isPolyline] at hp
    · exact absurd hc (by simp [closeAfterMove])
    · simp [isPolyline] at hp

/-- Counterexample to C8 as stated: the one-command stream `[close]`
contains only `move`/`on`/`close` commands, but flattening drops the
`close` (no subpath is open), so the output is not identical to the
source. -/
theorem c8_counterexample :
    isPolyline [(CmdKind.close, ((0 : ℚ), (0 : ℚ)))] = true
    ∧ flattenPath [(CmdKind.close, ((0 : ℚ), (0 : ℚ)))] (1 / 4)
        ≠ .ok (polyImage [(CmdKind.close, ((0 : ℚ), (0 : ℚ)))]) := by
  constructor
  · rfl
  · intro h
    simp [flattenPath, flattenGo, polyImage] at h

/-- C8 (amended): flattening a stream of only `move`/`on`/`close` commands
in which every `close` is preceded by some earlier `move` returns, for
every tolerance, exactly the corresponding `move-to`/`line-to`/`close`
sequence with the same points. -/
theorem c8_polyline_identity (src : List PathCmd) (tol : ℚ)
    (hp : isPolyline src = true) (hc : closeAfterMove src = true) :
    flattenPath src tol = .ok (polyImage src) :=
  flattenGo_polyline_closed tol flattenFuel src (0, 0) (0, 0) hp hc

/-- Witness for C8 (amended): a concrete three-command polyline is
reproduced exactly, at a non-default tolerance. -/
theorem c8_polyline_identity_witness :
    flattenPath
        [(CmdKind.move, ((1 : ℚ), (2 : ℚ))), (CmdKind.onCmd, ((3 : ℚ), (4 : ℚ))),
         (CmdKind.close, ((9 : ℚ), (9 : ℚ)))] (7 / 2)
      = .ok [OutCmd.moveTo ((1 : ℚ), (2 : ℚ)), OutCmd.lineTo ((3 : ℚ), (4 : ℚ)),
             OutCmd.closeCmd] := by
  rw [c8_polyline_identity _ _ (by rfl) (by rfl)]
  rfl

/-! ## Box blur (`c_src/images/blur.cpp`)

Pixel bytes are `ℕ` values (in range `[0,255]` for well-formed buffers);
window sums are `ℤ` as in the C `int` arithmetic.  The divisions
`(sum + dia/2) / dia` only ever see a nonnegative dividend and a positive
divisor, where C's truncated division and Lean's `/` on `ℤ` agree.
`sigma` is an exact rational; `sqrt`, `floor` and `round` of the C double
computation are carried out exactly on `ℚ`. -/

/-- `clamp_int`. -/
def clamp_int (v lo hi : ℤ) : ℤ :=
  if v < lo then lo
  else if v > hi then hi
  else v

/-- C `std::round`: round half away from zero. -/
def cround (q : ℚ) : ℤ :=
  if q < 0 then -⌊-q + 1 / 2⌋ else ⌊q + 1 / 2⌋

/-- Floor of the square root of a nonnegative rational, computed exactly:
for `q = a / b` in lowest terms, `⌊√q⌋ = ⌊√(a·b)⌋ / b`. -/
def ratFloorSqrt (q : ℚ) : ℤ :=
  ((Nat.sqrt (q.num.toNat * q.den) / q.den : ℕ) : ℤ)

/-- `gaussian_to_box_sizes`: the three box widths approximating a Gaussian
of the given sigma (`n = 3` boxes): `wl` is `⌊wIdeal⌋` lowered to the
nearest odd number, `wu = wl + 2`, and the first `m` entries use `wl`,
the rest `wu`. -/
def gaussian_to_box_sizes (sigma : ℚ) : List ℤ :=
  let n : ℚ := 3
  let wl0 : ℤ := ratFloorSqrt (12 * sigma * sigma / n + 1)
  let wl : ℤ := if wl0 % 2 = 0 then wl0 - 1 else wl0
  let wu : ℤ := wl + 2
  let mIdeal : ℚ :=
    (12 * sigma * sigma - n * (wl : ℚ) * (wl : ℚ) - 4 * n * (wl : ℚ) - 3 * n)
      / (-4 * (wl : ℚ) - 4)
  let m : ℤ := cround mIdeal
  [if 0 < m then wl else wu, if 1 < m then wl else wu, if 2 < m then wl else wu]

/-- Specification-side box widths (written from the spec):
`wIdeal = sqrt(12σ²/3 + 1)`; `wl = ⌊wIdeal⌋` rounded down to the nearest
odd number; `wu = wl + 2`;
`m = round((12σ² − 3wl² − 12wl − 9) / (−4wl − 4))`; `wl` for the first `m`
passes, `wu` for the remaining `3 − m`. -/
def specBoxSizes (sigma : ℚ) : List ℤ :=
  let f : ℤ := ratFloorSqrt (12 * sigma ^ 2 / 3 + 1)
  let wl : ℤ := if f % 2 = 0 then f - 1 else f
  let wu : ℤ := wl + 2
  let m : ℤ :=
    cround ((12 * sigma ^ 2 - 3 * (wl : ℚ) ^ 2 - 12 * (wl : ℚ) - 9)
      / (-4 * (wl : ℚ) - 4))
  (List.range 3).map fun i => if (i : ℤ) < m then wl else wu

/-- A pixel buffer view: `w × h` pixels, `channels` bytes per pixel,
`stride` bytes between consecutive rows. -/
structure ImgView where
  data : List ℕ
  w : ℕ
  h : ℕ
  stride : ℕ
  channels : ℕ

/-- Byte at row `y`, pixel `x`, channel `c` (0 beyond the buffer). -/
def ImgView.byte (img : ImgView) (y x c : ℕ) : ℕ :=
  img.data.getD (y * img.stride + x * img.channels + c) 0

/-- Row sampling with the x coordinate clamped to `[0, w-1]`
(edge-replicate), as used by the horizontal pass. -/
def gH (img : ImgView) (y c : ℕ) (j : ℤ) : ℤ :=
  (img.byte y (clamp_int j 0 ((img.w : ℤ) - 1)).toNat c : ℤ)

/-- Column sampling with the y coordinate clamped to `[0, h-1]`. -/
def gV (img : ImgView) (x c : ℕ) (j : ℤ) : ℤ :=
  (img.byte (clamp_int j 0 ((img.h : ℤ) - 1)).toNat x c : ℤ)

/-- The initial sliding-window sum (`for i in -radius..radius`). -/
def initSum (g : ℤ → ℤ) (radius : ℕ) : ℤ :=
  ∑ i ∈ Finset.range (2 * radius + 1), g ((i : ℤ) - radius)

/-- One sliding-window scan line of `len` output bytes starting at
position `x` with current window sum `sum`: emit
`(sum + dia/2) / dia` truncated to `uint8_t`, then slide the window by
adding the entering sample and subtracting the leaving one. -/
def slideLine (g : ℤ → ℤ) (radius : ℕ) : ℕ → ℤ → ℕ → List ℕ
  | _, _, 0 => []
  | x, sum, len + 1 =>
    let dia : ℤ := 2 * (radius : ℤ) + 1
    (((sum + dia / 2) / dia).toNat % 256)
      :: slideLine g radius (x + 1)
          (sum + g ((x : ℤ) + radius + 1) - g ((x : ℤ) - radius)) len

/-- `box_blur_h`: one horizontal box pass over a tight buffer, every
output row produced by a sliding-window scan per channel. -/
def box_blur_h (src : ImgView) (radius : ℕ) : ImgView :=
  { data :=
      (List.range src.h).flatMap fun y =>
        (List.range src.w).flatMap fun x =>
          (List.range src.channels).map fun c =>
            (slideLine (gH src y c) radius 0 (initSum (gH src y c) radius)
              src.w).getD x 0
    w := src.w
    h := src.h
    stride := src.w * src.channels
    channels := src.channels }

/-- `box_blur_v`: one vertical box pass, sliding down each column. -/
def box_blur_v (src : ImgView) (radius : ℕ) : ImgView :=
  { data :=
      (List.range src.h).flatMap fun y =>
        (List.range src.w).flatMap fun x =>
          (List.range src.channels).map fun c =>
            (slideLine (gV src x c) radius 0 (initSum (gV src x c) radius)
              src.h).getD y 0
    w := src.w
    h := src.h
    stride := src.w * src.channels
    channels := src.channels }

/-- Image formats accepted by the blur: `BL_FORMAT_PRGB32`,
`BL_FORMAT_A8`, or anything else. -/
inductive BLFormat where
  | prgb32
  | a8
  | other
  deriving DecidableEq, Repr

/-- Channel count per format (`none` = unsupported). -/
def formatChannels : BLFormat → Option ℕ
  | .prgb32 => some 4
  | .a8 => some 1
  | .other => none

/-- Result codes of `blur_image_inplace` (`BL_SUCCESS`,
`BL_ERROR_INVALID_VALUE` = `InvalidSigma`, `BL_ERROR_INVALID_STATE` =
`UnsupportedFormat`). -/
inductive BLResult where
  | success
  | errorInvalidValue
  | errorInvalidState
  deriving DecidableEq, Repr

/-- The live image with its reported size, stride, format and raw bytes. -/
structure BLImage where
  w : ℕ
  h : ℕ
  stride : ℕ
  format : BLFormat
  data : List ℕ

/-- The effective blur dimension: the given value when positive and not
exceeding the buffer's, otherwise the full dimension. -/
def effDim (given : ℤ) (full : ℕ) : ℕ :=
  if 0 < given ∧ given ≤ (full : ℤ) then given.toNat else full

/-- Pack the top-left `effH` rows of `rowBytes` bytes of a strided buffer
into a tight buffer (the row-by-row `memcpy`, byte for byte). -/
def packRegion (data : List ℕ) (stride rowBytes effH : ℕ) : List ℕ :=
  (List.range effH).flatMap fun y =>
    (List.range rowBytes).map fun o => data.getD (y * stride + o) 0

/-- Copy a tight buffer back into the original strided buffer: byte `j`
belongs to the packed region when its row `j / stride` is below `effH`
and its row offset `j % stride` is below `rowBytes` (the row-by-row
`memcpy` back). -/
def unpackRegion (data : List ℕ) (stride rowBytes effH : ℕ)
    (tight : List ℕ) : List ℕ :=
  (List.range data.length).map fun j =>
    if j / stride < effH ∧ j % stride < rowBytes then
      tight.getD (j / stride * rowBytes + j % stride) 0
    else data.getD j 0

/-- `blur_image_inplace`: validate sigma, size and format, pack the
effective region into a tight scratch, run the three box passes
(horizontal then vertical each), and unpack.  Returns the result code and
the final bytes of the live buffer. -/
def blur_image_inplace (img : BLImage) (sigma : ℚ) (width height : ℤ) :
    BLResult × List ℕ :=
  if sigma ≤ 0 then (.errorInvalidValue, img.data)
  else if img.w = 0 ∨ img.h = 0 then (.success, img.data)
  else
    match formatChannels img.format with
    | none => (.errorInvalidState, img.data)
    | some channels =>
      let effW := effDim width img.w
      let effH := effDim height img.h
      let rowBytes := effW * channels
      let packed : ImgView :=
        { data := packRegion img.data img.stride rowBytes effH
          w := effW
          h := effH
          stride := rowBytes
          channels := channels }
      let sizes := gaussian_to_box_sizes sigma
      let final := sizes.foldl
        (fun acc sz =>
          let radius := (sz / 2).toNat
          box_blur_v (box_blur_h acc radius) radius)
        packed
      (.success, unpackRegion img.data img.stride rowBytes effH final.data)

/-! ### Sliding-window correctness -/

/-- The window sum centred at position `x`: the `2r+1` samples
`g (x - r) .. g (x + r)`. -/
def winSum (g : ℤ → ℤ) (r : ℕ) (x : ℤ) : ℤ :=
  ∑ i ∈ Finset.range (2 * r + 1), g (x + i - r)

/-- The initial loop computes the window sum at position 0. -/
theorem initSum_eq_winSum (g : ℤ → ℤ) (r : ℕ) : initSum g r = winSum g r 0 := by
  unfold initSum winSum
  exact Finset.sum_congr rfl fun i _ => by rw [zero_add]

/-- Sliding the window one step: add the entering sample, drop the
leaving one. -/
theorem winSum_succ (g : ℤ → ℤ) (r : ℕ) (x : ℤ) :
    winSum g r (x + 1) = winSum g r x + g (x + r + 1) - g (x - r) := by
  unfold winSum
  have h0 : g (x + ((0 : ℕ) : ℤ) - r) = g (x - r) := by norm_num
  have hlast : g (x + ((2 * r + 1 : ℕ) : ℤ) - r) = g (x + r + 1) := by
    congr 1
    push_cast
    ring
  have hshift : (∑ i ∈ Finset.range (2 * r + 1), g (x + 1 + (i : ℤ) - r))
      = ∑ i ∈ Finset.range (2 * r + 1), g (x + ((i + 1 : ℕ) : ℤ) - r) :=
    Finset.sum_congr rfl fun i _ => by
      congr 1
      push_cast
      ring
  have key := Finset.sum_range_succ' (fun i : ℕ => g (x + i - r)) (2 * r + 1)
  have key2 := Finset.sum_range_succ (fun i : ℕ => g (x + i - r)) (2 * r + 1)
  rw [hshift]
  rw [h0] at key
  rw [hlast] at key2
  linarith [key, key2]

/-- `slideLine` emits one byte per requested position. -/
theorem slideLine_length (g : ℤ → ℤ) (r : ℕ) :
    ∀ (len x : ℕ) (sum : ℤ), (slideLine g r x sum len).length = len := by
  intro len
  induction len with
  | zero => intro x sum; rfl
  | succ n ih =>
    intro x sum
    simp [slideLine, ih]

/-- The sliding-window scan computes, at every position, exactly the
rounded average of the window sum there. -/
theorem slideLine_getD (g : ℤ → ℤ) (r : ℕ) :
    ∀ (len k x : ℕ), k < len →
      (slideLine g r x (winSum g r x) len).getD k 0
        = ((winSum g r ((x : ℤ) + k) + (2 * (r : ℤ) + 1) / 2)
            / (2 * (r : ℤ) + 1)).toNat % 256 := by
  intro len
  induction len with
  | zero => intro k x hk; exact absurd hk (Nat.not_lt_zero k)
  | succ n ih =>
    intro k x hk
    cases k with
    | zero =>
      simp [slideLine]
    | succ k =>
      have hstep : (winSum g r x) + g ((x : ℤ) + r + 1) - g ((x : ℤ) - r)
          = winSum g r ((x + 1 : ℕ) : ℤ) := by
        rw [← winSum_succ]
        norm_num
      have htail :
          (slideLine g r x (winSum g r x) (n + 1)).getD (k + 1) 0
            = (slideLine g r (x + 1) (winSum g r ((x + 1 : ℕ) : ℤ)) n).getD k 0 := by
        rw [slideLine, ← hstep]
        rfl
      rw [htail, ih k (x + 1) (Nat.lt_of_succ_lt_succ hk)]
      congr 2
      push_cast
      ring

/-- Every byte `slideLine` produces is at most 255. -/
theorem slideLine_le (g : ℤ → ℤ) (r : ℕ) :
    ∀ (len x : ℕ) (sum : ℤ) (b : ℕ), b ∈ slideLine g r x sum len → b ≤ 255 := by
  intro len
  induction len with
  | zero => intro x sum b hb; cases hb
  | succ n ih =>
    intro x sum b hb
    rw [slideLine] at hb
    rcases List.mem_cons.mp hb with h | h
    · subst h
      exact Nat.le_of_lt_succ (Nat.mod_lt _ (by norm_num))
    · exact ih _ _ b h

/-! ### Flat-buffer indexing -/

/-- Length of a concatenation of fixed-size blocks. -/
theorem length_flatMap_range {α : Type} (f : ℕ → List α) (B : ℕ)
    (hlen : ∀ i, (f i).length = B) :
    ∀ n, ((List.range n).flatMap f).length = n * B := by
  intro n
  induction n with
  | zero => simp
  | succ m ih =>
    rw [List.range_succ, List.flatMap_append, List.length_append, ih]
    simp [hlen, Nat.succ_mul]

/-- Indexing into a concatenation of fixed-size blocks. -/
theorem getD_flatMap_range {α : Type} (B : ℕ) (d : α) :
    ∀ (y : ℕ) (f : ℕ → List α), (∀ i, (f i).length = B) →
      ∀ (n o : ℕ), y < n → o < B →
        ((List.range n).flatMap f).getD (y * B + o) d = (f y).getD o d := by
  intro y
  induction y with
  | zero =>
    intro f hlen n o hy ho
    obtain ⟨m, rfl⟩ : ∃ m, n = m + 1 := ⟨n - 1, by omega⟩
    rw [List.range_succ_eq_map, List.flatMap_cons, List.flatMap_map]
    simp only [Nat.zero_mul, Nat.zero_add]
    exact List.getD_append _ _ _ _ (by rw [hlen]; exact ho)
  | succ z ih =>
    intro f hlen n o hy ho
    obtain ⟨m, rfl⟩ : ∃ m, n = m + 1 := ⟨n - 1, by omega⟩
    rw [List.range_succ_eq_map, List.flatMap_cons, List.flatMap_map]
    have hidx : (z + 1) * B + o = B + (z * B + o) := by ring
    rw [hidx, List.getD_append_right _ _ _ _ (by rw [hlen]; omega)]
    have hsub : B + (z * B + o) - (f 0).length = z * B + o := by
      rw [hlen]
      omega
    rw [hsub]
    exact ih (fun i => f (i + 1)) (fun i => hlen (i + 1)) m o
      (Nat.lt_of_succ_lt_succ hy) ho

/-- `getD` with default 0 respects a bound on the buffer bytes. -/
theorem getD_le_of_bytes (l : List ℕ) (i : ℕ) (hb : ∀ b ∈ l, b ≤ 255) :
    l.getD i 0 ≤ 255 := by
  by_cases h : i < l.length
  · rw [List.getD_eq_getElem l 0 h]
    exact hb _ (List.getElem_mem h)
  · rw [List.getD_eq_default l 0 (Nat.le_of_not_lt h)]
    exact Nat.zero_le 255

/-! ### Per-pixel value of a box pass -/

/-- The horizontal window sum of pixel `(y, x)`, channel `c`: the `2r+1`
bytes of row `y` at the edge-clamped columns `x-r .. x+r`. -/
def winSumH (src : ImgView) (r y x c : ℕ) : ℕ :=
  ∑ i ∈ Finset.range (2 * r + 1),
    src.byte y (clamp_int ((x : ℤ) + i - r) 0 ((src.w : ℤ) - 1)).toNat c

/-- The vertical window sum of pixel `(y, x)`, channel `c`. -/
def winSumV (src : ImgView) (r y x c : ℕ) : ℕ :=
  ∑ i ∈ Finset.range (2 * r + 1),
    src.byte (clamp_int ((y : ℤ) + i - r) 0 ((src.h : ℤ) - 1)).toNat x c

/-- The `ℤ` window sum over the clamped row equals the `ℕ` one. -/
theorem winSum_gH (src : ImgView) (r y x c : ℕ) :
    winSum (gH src y c) r (x : ℤ) = (winSumH src r y x c : ℤ) := by
  unfold winSum winSumH gH
  push_cast
  rfl

/-- The `ℤ` window sum over the clamped column equals the `ℕ` one. -/
theorem winSum_gV (src : ImgView) (r y x c : ℕ) :
    winSum (gV src x c) r (y : ℤ) = (winSumV src r y x c : ℤ) := by
  unfold winSum winSumV gV
  push_cast
  rfl

/-- Raw byte of the horizontal pass. -/
theorem box_blur_h_byte (src : ImgView) (r y x c : ℕ)
    (hy : y < src.h) (hx : x < src.w) (hc : c < src.channels) :
    (box_blur_h src r).byte y x c
      = ((winSum (gH src y c) r (x : ℤ) + (2 * (r : ℤ) + 1) / 2)
          / (2 * (r : ℤ) + 1)).toNat % 256 := by
  have hinner : ∀ (yy : ℕ),
      ∀ i, ((List.range src.channels).map fun cc =>
        (slideLine (gH src yy cc) r 0 (initSum (gH src yy cc) r) src.w).getD i 0).length
          = src.channels := by
    intro yy i
    simp
  have hrow : ∀ i, ((List.range src.w).flatMap fun xx =>
      (List.range src.channels).map fun cc =>
        (slideLine (gH src i cc) r 0 (initSum (gH src i cc) r) src.w).getD xx 0).length
          = src.w * src.channels := by
    intro i
    exact length_flatMap_range _ _ (fun xx => by simp) src.w
  show ((List.range src.h).flatMap _).getD (y * (src.w * src.channels) + x * src.channels + c) 0
      = _
  rw [show y * (src.w * src.channels) + x * src.channels + c
      = y * (src.w * src.channels) + (x * src.channels + c) by ring]
  have ho : x * src.channels + c < src.w * src.channels := by
    calc x * src.channels + c < x * src.channels + src.channels :=
          Nat.add_lt_add_left hc _
      _ = (x + 1) * src.channels := by ring
      _ ≤ src.w * src.channels := Nat.mul_le_mul_right _ (Nat.succ_le_of_lt hx)
  rw [getD_flatMap_range (src.w * src.channels) 0 y _ hrow src.h _ hy ho]
  rw [getD_flatMap_range src.channels 0 x _ (hinner y) src.w _ hx hc]
  have hclen : c < ((List.range src.channels).map fun cc =>
      (slideLine (gH src y cc) r 0 (initSum (gH src y cc) r) src.w).getD x 0).length := by
    simpa using hc
  rw [List.getD_eq_getElem _ 0 hclen, List.getElem_map, List.getElem_range]
  rw [initSum_eq_winSum]
  have h0 : winSum (gH src y c) r 0 = winSum (gH src y c) r ((0 : ℕ) : ℤ) := by norm_num
  rw [h0, slideLine_getD (gH src y c) r src.w x 0 hx]
  norm_num

/-- Raw byte of the vertical pass. -/
theorem box_blur_v_byte (src : ImgView) (r y x c : ℕ)
    (hy : y < src.h) (hx : x < src.w) (hc : c < src.channels) :
    (box_blur_v src r).byte y x c
      = ((winSum (gV src x c) r (y : ℤ) + (2 * (r : ℤ) + 1) / 2)
          / (2 * (r : ℤ) + 1)).toNat % 256 := by
  have hrow : ∀ i, ((List.range src.w).flatMap fun xx =>
      (List.range src.channels).map fun cc =>
        (slideLine (gV src xx cc) r 0 (initSum (gV src xx cc) r) src.h).getD i 0).length
          = src.w * src.channels := by
    intro i
    exact length_flatMap_range _ _ (fun xx => by simp) src.w
  show ((List.range src.h).flatMap _).getD (y * (src.w * src.channels) + x * src.channels + c) 0
      = _
  rw [show y * (src.w * src.channels) + x * src.channels + c
      = y * (src.w * src.channels) + (x * src.channels + c) by ring]
  have ho : x * src.channels + c < src.w * src.channels := by
    calc x * src.channels + c < x * src.channels + src.channels :=
          Nat.add_lt_add_left hc _
      _ = (x + 1) * src.channels := by ring
      _ ≤ src.w * src.channels := Nat.mul_le_mul_right _ (Nat.succ_le_of_lt hx)
  rw [getD_flatMap_range (src.w * src.channels) 0 y _ hrow src.h _ hy ho]
  rw [getD_flatMap_range src.channels 0 x _ (fun i => by simp) src.w _ hx hc]
  have hclen : c < ((List.range src.channels).map fun cc =>
      (slideLine (gV src x cc) r 0 (initSum (gV src x cc) r) src.h).getD y 0).length := by
    simpa using hc
  rw [List.getD_eq_getElem _ 0 hclen, List.getElem_map, List.getElem_range]
  rw [initSum_eq_winSum]
  have h0 : winSum (gV src x c) r 0 = winSum (gV src x c) r ((0 : ℕ) : ℤ) := by norm_num
  rw [h0, slideLine_getD (gV src x c) r src.h y 0 hy]
  norm_num

/-- The horizontal window sum is bounded by `diameter * 255` for byte
data. -/
theorem winSumH_le (src : ImgView) (r y x c : ℕ)
    (hb : ∀ b ∈ src.data, b ≤ 255) :
    winSumH src r y x c ≤ (2 * r + 1) * 255 := by
  unfold winSumH
  calc ∑ i ∈ Finset.range (2 * r + 1),
        src.byte y (clamp_int ((x : ℤ) + i - r) 0 ((src.w : ℤ) - 1)).toNat c
      ≤ (Finset.range (2 * r + 1)).card • 255 :=
        Finset.sum_le_card_nsmul _ _ 255 fun i _ => getD_le_of_bytes _ _ hb
    _ = (2 * r + 1) * 255 := by simp

/-- The vertical window sum is bounded by `diameter * 255` for byte
data. -/
theorem winSumV_le (src : ImgView) (r y x c : ℕ)
    (hb : ∀ b ∈ src.data, b ≤ 255) :
    winSumV src r y x c ≤ (2 * r + 1) * 255 := by
  unfold winSumV
  calc ∑ i ∈ Finset.range (2 * r + 1),
        src.byte (clamp_int ((y : ℤ) + i - r) 0 ((src.h : ℤ) - 1)).toNat x c
      ≤ (Finset.range (2 * r + 1)).card • 255 :=
        Finset.sum_le_card_nsmul _ _ 255 fun i _ => getD_le_of_bytes _ _ hb
    _ = (2 * r + 1) * 255 := by simp

/-- For byte data, a horizontal pass computes every output pixel as
`(windowSum + diameter/2) / diameter` in `ℕ` arithmetic (the truncation
to `uint8_t` never loses bits). -/
theorem box_blur_h_pixel (src : ImgView) (r y x c : ℕ)
    (hb : ∀ b ∈ src.data, b ≤ 255)
    (hy : y < src.h) (hx : x < src.w) (hc : c < src.channels) :
    (box_blur_h src r).byte y x c
      = (winSumH src r y x c + (2 * r + 1) / 2) / (2 * r + 1) := by
  rw [box_blur_h_byte src r y x c hy hx hc, winSum_gH]
  have hdia : (2 * (r : ℤ) + 1) / 2 = (r : ℤ) := by omega
  rw [hdia]
  have hcast : (winSumH src r y x c : ℤ) + (r : ℤ)
      = ((winSumH src r y x c + r : ℕ) : ℤ) := by push_cast; ring
  have hcast2 : 2 * (r : ℤ) + 1 = ((2 * r + 1 : ℕ) : ℤ) := by push_cast; ring
  rw [hcast, hcast2, ← Int.ofNat_ediv, Int.toNat_natCast]
  have hr2 : ((2 * r + 1) / 2 : ℕ) = r := by omega
  rw [hr2]
  apply Nat.mod_eq_of_lt
  rw [Nat.div_lt_iff_lt_mul (by omega)]
  have hle := winSumH_le src r y x c hb
  omega

/-- For byte data, a vertical pass computes every output pixel as
`(windowSum + diameter/2) / diameter` in `ℕ` arithmetic. -/
theorem box_blur_v_pixel (src : ImgView) (r y x c : ℕ)
    (hb : ∀ b ∈ src.data, b ≤ 255)
    (hy : y < src.h) (hx : x < src.w) (hc : c < src.channels) :
    (box_blur_v src r).byte y x c
      = (winSumV src r y x c + (2 * r + 1) / 2) / (2 * r + 1) := by
  rw [box_blur_v_byte src r y x c hy hx hc, winSum_gV]
  have hdia : (2 * (r : ℤ) + 1) / 2 = (r : ℤ) := by omega
  rw [hdia]
  have hcast : (winSumV src r y x c : ℤ) + (r : ℤ)
      = ((winSumV src r y x c + r : ℕ) : ℤ) := by push_cast; ring
  have hcast2 : 2 * (r : ℤ) + 1 = ((2 * r + 1 : ℕ) : ℤ) := by push_cast; ring
  rw [hcast, hcast2, ← Int.ofNat_ediv, Int.toNat_natCast]
  have hr2 : ((2 * r + 1) / 2 : ℕ) = r := by omega
  rw [hr2]
  apply Nat.mod_eq_of_lt
  rw [Nat.div_lt_iff_lt_mul (by omega)]
  have hle := winSumV_le src r y x c hb
  omega

/-- Every byte a horizontal pass produces is at most 255. -/
theorem box_blur_h_bytes (src : ImgView) (r : ℕ) :
    ∀ b ∈ (box_blur_h src r).data, b ≤ 255 := by
  intro b hb
  simp only [box_blur_h, List.mem_flatMap, List.mem_map] at hb
  obtain ⟨y, -, x, -, cc, -, rfl⟩ := hb
  exact getD_le_of_bytes _ _ fun v hv => slideLine_le _ _ _ _ _ v hv

/-- Every byte a vertical pass produces is at most 255. -/
theorem box_blur_v_bytes (src : ImgView) (r : ℕ) :
    ∀ b ∈ (box_blur_v src r).data, b ≤ 255 := by
  intro b hb
  simp only [box_blur_v, List.mem_flatMap, List.mem_map] at hb
  obtain ⟨y, -, x, -, cc, -, rfl⟩ := hb
  exact getD_le_of_bytes _ _ fun v hv => slideLine_le _ _ _ _ _ v hv

/-- The box widths computed by the code agree with the specification
formula in every component. -/
theorem gaussian_to_box_sizes_eq_spec (sigma : ℚ) :
    gaussian_to_box_sizes sigma = specBoxSizes sigma := by
  simp only [gaussian_to_box_sizes, specBoxSizes]
  have harg : 12 * sigma * sigma / 3 + 1 = 12 * sigma ^ 2 / 3 + 1 := by ring
  rw [harg]
  set f := ratFloorSqrt (12 * sigma ^ 2 / 3 + 1) with hf
  set wl := if f % 2 = 0 then f - 1 else f with hwl
  have hm : (12 * sigma * sigma - 3 * (wl : ℚ) * (wl : ℚ) - 4 * 3 * (wl : ℚ) - 3 * 3)
        / (-4 * (wl : ℚ) - 4)
      = (12 * sigma ^ 2 - 3 * (wl : ℚ) ^ 2 - 12 * (wl : ℚ) - 9)
        / (-4 * (wl : ℚ) - 4) := by
    ring_nf
  rw [hm]
  rw [show List.range 3 = [0, 1, 2] by rfl]
  simp

/-- C3: for every pixel buffer and every `sigma ≤ 0`, the blur returns the
`InvalidSigma` error (`BL_ERROR_INVALID_VALUE`) and the buffer bytes are
untouched. -/
theorem c3_invalid_sigma (img : BLImage) (sigma : ℚ) (width height : ℤ)
    (h : sigma ≤ 0) :
    blur_image_inplace img sigma width height = (.errorInvalidValue, img.data) := by
  unfold blur_image_inplace
  rw [if_pos h]

/-- Witness for C3: a concrete 2×2 A8 buffer with `sigma = -1`. -/
theorem c3_invalid_sigma_witness :
    blur_image_inplace ⟨2, 2, 2, .a8, [1, 2, 3, 4]⟩ (-1) (-1) (-1)
      = (.errorInvalidValue, [1, 2, 3, 4]) :=
  c3_invalid_sigma ⟨2, 2, 2, .a8, [1, 2, 3, 4]⟩ (-1) (-1) (-1) (by norm_num)

/-- C5: the three box widths follow the specification formula
(`wIdeal = √(12σ²/3+1)`, `wl` its floor lowered to odd, `wu = wl + 2`,
`wl` for the first `m = round(...)` passes, `wu` for the rest), and each
box pass computes every output pixel as
`(windowSum + diameter/2) / diameter` in integer arithmetic,
independently per channel. -/
theorem c5_box_parameters (sigma : ℚ) (src : ImgView) (radius y x c : ℕ)
    (hb : ∀ b ∈ src.data, b ≤ 255)
    (hy : y < src.h) (hx : x < src.w) (hc : c < src.channels) :
    gaussian_to_box_sizes sigma = specBoxSizes sigma
    ∧ (box_blur_h src radius).byte y x c
        = (winSumH src radius y x c + (2 * radius + 1) / 2) / (2 * radius + 1)
    ∧ (box_blur_v src radius).byte y x c
        = (winSumV src radius y x c + (2 * radius + 1) / 2) / (2 * radius + 1) :=
  ⟨gaussian_to_box_sizes_eq_spec sigma,
   box_blur_h_pixel src radius y x c hb hy hx hc,
   box_blur_v_pixel src radius y x c hb hy hx hc⟩

/-- Witness for C5: a concrete one-pixel buffer, radius 1, `sigma = 1`. -/
theorem c5_box_parameters_witness :
    gaussian_to_box_sizes 1 = specBoxSizes 1
    ∧ (box_blur_h ⟨[10], 1, 1, 1, 1⟩ 1).byte 0 0 0
        = (winSumH ⟨[10], 1, 1, 1, 1⟩ 1 0 0 0 + (2 * 1 + 1) / 2) / (2 * 1 + 1)
    ∧ (box_blur_v ⟨[10], 1, 1, 1, 1⟩ 1).byte 0 0 0
        = (winSumV ⟨[10], 1, 1, 1, 1⟩ 1 0 0 0 + (2 * 1 + 1) / 2) / (2 * 1 + 1) :=
  c5_box_parameters 1 ⟨[10], 1, 1, 1, 1⟩ 1 0 0 0 (by decide) (by decide)
    (by decide) (by decide)

/-! ### Packing, unpacking and the effective region -/

/-- A clamped coordinate lands inside `[0, w)` when `w > 0`. -/
theorem clamp_toNat_lt (j : ℤ) (w : ℕ) (hw : 0 < w) :
    (clamp_int j 0 ((w : ℤ) - 1)).toNat < w := by
  unfold clamp_int
  split_ifs <;> omega

/-- `effDim` never exceeds the full dimension. -/
theorem effDim_le (given : ℤ) (full : ℕ) : effDim given full ≤ full := by
  unfold effDim
  split_ifs with h
  · omega
  · exact Nat.le_refl full

/-- `effDim` of a positive buffer dimension is positive. -/
theorem effDim_pos (given : ℤ) (full : ℕ) (hf : 0 < full) :
    0 < effDim given full := by
  unfold effDim
  split_ifs with h
  · omega
  · exact hf

/-- `unpackRegion` preserves the buffer length. -/
theorem unpackRegion_length (data : List ℕ) (stride rowBytes effH : ℕ)
    (tight : List ℕ) :
    (unpackRegion data stride rowBytes effH tight).length = data.length := by
  simp [unpackRegion]

/-- Byte `j` after unpacking: the tight byte inside the effective region,
the untouched original byte outside it. -/
theorem unpackRegion_getD (data : List ℕ) (stride rowBytes effH : ℕ)
    (tight : List ℕ) (j : ℕ) (hj : j < data.length) :
    (unpackRegion data stride rowBytes effH tight).getD j 0
      = if j / stride < effH ∧ j % stride < rowBytes then
          tight.getD (j / stride * rowBytes + j % stride) 0
        else data.getD j 0 := by
  unfold unpackRegion
  rw [List.getD_eq_getElem _ 0 (by simpa using hj), List.getElem_map,
    List.getElem_range]

/-- The packed byte at `(y, x, c)` is the original strided byte there. -/
theorem packRegion_byte (data : List ℕ) (stride rowBytes effH : ℕ)
    (y o : ℕ) (hy : y < effH) (ho : o < rowBytes) :
    (packRegion data stride rowBytes effH).getD (y * rowBytes + o) 0
      = data.getD (y * stride + o) 0 := by
  unfold packRegion
  rw [getD_flatMap_range rowBytes 0 y _ (fun i => by simp) effH _ hy ho]
  have hol : o < ((List.range rowBytes).map
      fun oo => data.getD (y * stride + oo) 0).length := by
    simpa using ho
  rw [List.getD_eq_getElem _ 0 hol, List.getElem_map, List.getElem_range]

/-- Every packed byte obeys the byte bound of the source buffer. -/
theorem packRegion_bytes (data : List ℕ) (stride rowBytes effH : ℕ)
    (hb : ∀ b ∈ data, b ≤ 255) :
    ∀ b ∈ packRegion data stride rowBytes effH, b ≤ 255 := by
  intro b hbm
  simp only [packRegion, List.mem_flatMap, List.mem_map] at hbm
  obtain ⟨y, -, o, -, rfl⟩ := hbm
  exact getD_le_of_bytes _ _ hb

/-! ### Constant images are fixed points of the box passes -/

/-- A horizontal pass maps a channel-wise constant image to itself,
pixel for pixel: the window sum over a constant row is
`diameter * v`, and `(diameter*v + diameter/2) / diameter = v`. -/
theorem box_blur_h_const (src : ImgView) (r : ℕ) (vals : ℕ → ℕ)
    (hw : 0 < src.w)
    (hconst : ∀ y < src.h, ∀ x < src.w, ∀ c < src.channels, src.byte y x c = vals c)
    (hb : ∀ b ∈ src.data, b ≤ 255) :
    ∀ y < src.h, ∀ x < src.w, ∀ c < src.channels,
      (box_blur_h src r).byte y x c = vals c := by
  intro y hy x hx c hc
  rw [box_blur_h_pixel src r y x c hb hy hx hc]
  have hsum : winSumH src r y x c = (2 * r + 1) * vals c := by
    unfold winSumH
    rw [Finset.sum_congr rfl fun i _ =>
      hconst y hy _ (clamp_toNat_lt _ _ hw) c hc]
    simp [Finset.sum_const, mul_comm]
  rw [hsum]
  have h1 : ((2 * r + 1) / 2 : ℕ) = r := by omega
  rw [h1, Nat.mul_add_div (by omega), Nat.div_eq_of_lt (by omega)]
  omega

/-- A vertical pass maps a channel-wise constant image to itself. -/
theorem box_blur_v_const (src : ImgView) (r : ℕ) (vals : ℕ → ℕ)
    (hh : 0 < src.h)
    (hconst : ∀ y < src.h, ∀ x < src.w, ∀ c < src.channels, src.byte y x c = vals c)
    (hb : ∀ b ∈ src.data, b ≤ 255) :
    ∀ y < src.h, ∀ x < src.w, ∀ c < src.channels,
      (box_blur_v src r).byte y x c = vals c := by
  intro y hy x hx c hc
  rw [box_blur_v_pixel src r y x c hb hy hx hc]
  have hsum : winSumV src r y x c = (2 * r + 1) * vals c := by
    unfold winSumV
    rw [Finset.sum_congr rfl fun i _ =>
      hconst _ (clamp_toNat_lt _ _ hh) x hx c hc]
    simp [Finset.sum_const, mul_comm]
  rw [hsum]
  have h1 : ((2 * r + 1) / 2 : ℕ) = r := by omega
  rw [h1, Nat.mul_add_div (by omega), Nat.div_eq_of_lt (by omega)]
  omega

/-- The three-pass fold preserves dimensions and a channel-wise constant
image, for every list of box sizes. -/
theorem foldPasses_const (vals : ℕ → ℕ) :
    ∀ (sizes : List ℤ) (img : ImgView),
      0 < img.w → 0 < img.h → img.stride = img.w * img.channels →
      (∀ y < img.h, ∀ x < img.w, ∀ c < img.channels, img.byte y x c = vals c) →
      (∀ b ∈ img.data, b ≤ 255) →
      (let out := sizes.foldl
          (fun acc sz => box_blur_v (box_blur_h acc (sz / 2).toNat) (sz / 2).toNat) img
       out.w = img.w ∧ out.h = img.h ∧ out.channels = img.channels
       ∧ out.stride = img.stride
       ∧ (∀ y < img.h, ∀ x < img.w, ∀ c < img.channels, out.byte y x c = vals c)
       ∧ (∀ b ∈ out.data, b ≤ 255)) := by
  intro sizes
  induction sizes with
  | nil =>
    intro img hw hh hstr hconst hbytes
    exact ⟨rfl, rfl, rfl, rfl, hconst, hbytes⟩
  | cons sz rest ih =>
    intro img hw hh hstr hconst hbytes
    set r := ((sz / 2).toNat)
    have hH := box_blur_h_const img r vals hw hconst hbytes
    have hHbytes := box_blur_h_bytes img r
    have hV := box_blur_v_const (box_blur_h img r) r vals hh hH hHbytes
    have hVbytes := box_blur_v_bytes (box_blur_h img r) r
    have hres := ih (box_blur_v (box_blur_h img r) r) hw hh (by simp [box_blur_v, hstr])
      hV hVbytes
    obtain ⟨h1, h2, h3, h4, h5, h6⟩ := hres
    rw [List.foldl_cons]
    exact ⟨h1, h2, h3, h4.trans hstr.symm, h5, h6⟩
  
/-- C7: bytes outside the effective top-left region — rows at and beyond
`effH`, and bytes of a row at and beyond `effW * channels`, which
includes all stride padding — are never modified, the buffer length is
preserved, and the effective dimensions are the given `width`/`height`
exactly when these are positive and within the buffer, the full
dimensions otherwise. -/
theorem c7_effective_region (img : BLImage) (sigma : ℚ) (width height : ℤ)
    (ch : ℕ) (hfmt : formatChannels img.format = some ch) :
    (∀ j, ¬ (j / img.stride < effDim height img.h
            ∧ j % img.stride < effDim width img.w * ch) →
        (blur_image_inplace img sigma width height).2.getD j 0
          = img.data.getD j 0)
    ∧ (blur_image_inplace img sigma width height).2.length = img.data.length
    ∧ (0 < width ∧ width ≤ (img.w : ℤ) → effDim width img.w = width.toNat)
    ∧ (¬ (0 < width ∧ width ≤ (img.w : ℤ)) → effDim width img.w = img.w)
    ∧ (0 < height ∧ height ≤ (img.h : ℤ) → effDim height img.h = height.toNat)
    ∧ (¬ (0 < height ∧ height ≤ (img.h : ℤ)) → effDim height img.h = img.h) := by
  have e3 : 0 < width ∧ width ≤ (img.w : ℤ) → effDim width img.w = width.toNat := by
    intro h
    unfold effDim
    rw [if_pos h]
  have e4 : ¬ (0 < width ∧ width ≤ (img.w : ℤ)) → effDim width img.w = img.w := by
    intro h
    unfold effDim
    rw [if_neg h]
  have e5 : 0 < height ∧ height ≤ (img.h : ℤ) → effDim height img.h = height.toNat := by
    intro h
    unfold effDim
    rw [if_pos h]
  have e6 : ¬ (0 < height ∧ height ≤ (img.h : ℤ)) → effDim height img.h = img.h := by
    intro h
    unfold effDim
    rw [if_neg h]
  have hpair : (∀ j, ¬ (j / img.stride < effDim height img.h
          ∧ j % img.stride < effDim width img.w * ch) →
        (blur_image_inplace img sigma width height).2.getD j 0
          = img.data.getD j 0)
      ∧ (blur_image_inplace img sigma width height).2.length = img.data.length := by
    unfold blur_image_inplace
    by_cases h1 : sigma ≤ 0
    · rw [if_pos h1]
      exact ⟨fun j _ => rfl, rfl⟩
    · rw [if_neg h1]
      by_cases h2 : img.w = 0 ∨ img.h = 0
      · rw [if_pos h2]
        exact ⟨fun j _ => rfl, rfl⟩
      · rw [if_neg h2]
        simp only [hfmt]
        constructor
        · intro j hj
          by_cases hjlen : j < img.data.length
          · rw [unpackRegion_getD _ _ _ _ _ j hjlen, if_neg hj]
          · rw [List.getD_eq_default _ _
              (by rw [unpackRegion_length]; omega)]
            rw [List.getD_eq_default _ _ (by omega)]
        · exact unpackRegion_length _ _ _ _ _
  exact ⟨hpair.1, hpair.2, e3, e4, e5, e6⟩

/-- Witness for C7: a 2×1 A8 image with one stride-padding byte, blurred
on its 1×1 top-left sub-rectangle; bytes 1 (outside the sub-rectangle)
and 2 (padding) are untouched. -/
theorem c7_effective_region_witness :
    (blur_image_inplace ⟨2, 1, 3, .a8, [5, 9, 7]⟩ 1 1 1).2.getD 1 0
        = [5, 9, 7].getD 1 0
    ∧ (blur_image_inplace ⟨2, 1, 3, .a8, [5, 9, 7]⟩ 1 1 1).2.getD 2 0
        = [5, 9, 7].getD 2 0 := by
  constructor
  · exact (c7_effective_region ⟨2, 1, 3, .a8, [5, 9, 7]⟩ 1 1 1 1 rfl).1 1
      (by decide)
  · exact (c7_effective_region ⟨2, 1, 3, .a8, [5, 9, 7]⟩ 1 1 1 1 rfl).1 2
      (by decide)
  
/-- A supported format has a positive channel count. -/
theorem formatChannels_pos (fmt : BLFormat) (ch : ℕ)
    (h : formatChannels fmt = some ch) : 0 < ch := by
  cases fmt <;> simp [formatChannels] at h <;> omega

/-- C10: on an image whose pixels are channel-wise constant, the blur
succeeds and leaves every byte of the buffer unchanged, for every
supported format and every `sigma > 0`: each clamped window sum over a
constant channel is `diameter * v` and `(diameter*v + diameter/2) /
diameter = v`, so the three passes are the identity and the unpack
writes back the original bytes. -/
theorem c10_constant_image (img : BLImage) (sigma : ℚ) (width height : ℤ)
    (vals : ℕ → ℕ) (ch : ℕ)
    (hsig : 0 < sigma)
    (hfmt : formatChannels img.format = some ch)
    (hconst : ∀ y < img.h, ∀ x < img.w, ∀ c < ch,
        img.data.getD (y * img.stride + x * ch + c) 0 = vals c)
    (hb : ∀ b ∈ img.data, b ≤ 255) :
    blur_image_inplace img sigma width height = (.success, img.data) := by
  have hch : 0 < ch := formatChannels_pos img.format ch hfmt
  unfold blur_image_inplace
  rw [if_neg (not_le.mpr hsig)]
  by_cases hdeg : img.w = 0 ∨ img.h = 0
  · rw [if_pos hdeg]
  · rw [if_neg hdeg]
    push_neg at hdeg
    simp only [hfmt]
    have hW : 0 < effDim width img.w := effDim_pos _ _ (Nat.pos_of_ne_zero hdeg.1)
    have hH : 0 < effDim height img.h := effDim_pos _ _ (Nat.pos_of_ne_zero hdeg.2)
    have hWle := effDim_le width img.w
    have hHle := effDim_le height img.h
    set effW := effDim width img.w with heffW
    set effH := effDim height img.h with heffH
    set P : ImgView :=
      ⟨packRegion img.data img.stride (effW * ch) effH, effW, effH, effW * ch, ch⟩
      with hP
    have hPconst : ∀ y < P.h, ∀ x < P.w, ∀ c < P.channels, P.byte y x c = vals c := by
      intro y hy x hx c hc
      show (packRegion img.data img.stride (effW * ch) effH).getD
          (y * (effW * ch) + x * ch + c) 0 = vals c
      have ho : x * ch + c < effW * ch := by
        calc x * ch + c < x * ch + ch := Nat.add_lt_add_left hc _
          _ = (x + 1) * ch := by ring
          _ ≤ effW * ch := Nat.mul_le_mul_right _ (Nat.succ_le_of_lt hx)
      rw [show y * (effW * ch) + x * ch + c = y * (effW * ch) + (x * ch + c) by ring]
      rw [packRegion_byte img.data img.stride (effW * ch) effH y (x * ch + c) hy ho]
      rw [show y * img.stride + (x * ch + c) = y * img.stride + x * ch + c by ring]
      exact hconst y (lt_of_lt_of_le hy hHle) x (lt_of_lt_of_le hx hWle) c hc
    have hPbytes : ∀ b ∈ P.data, b ≤ 255 :=
      packRegion_bytes img.data img.stride (effW * ch) effH hb
    have hfold := foldPasses_const vals (gaussian_to_box_sizes sigma) P hW hH rfl
      hPconst hPbytes
    obtain ⟨f1, f2, f3, f4, f5, f6⟩ := hfold
    set out := (gaussian_to_box_sizes sigma).foldl
      (fun acc sz => box_blur_v (box_blur_h acc (sz / 2).toNat) (sz / 2).toNat) P
      with hout
    have hdata : unpackRegion img.data img.stride (effW * ch) effH out.data
        = img.data := by
      apply List.ext_getElem (unpackRegion_length _ _ _ _ _)
      intro i hi1 hi2
      rw [← List.getD_eq_getElem _ 0 hi1, ← List.getD_eq_getElem _ 0 hi2]
      rw [unpackRegion_getD _ _ _ _ _ i hi2]
      split_ifs with hreg
      · obtain ⟨hrow, hoff⟩ := hreg
        have hx : i % img.stride / ch < effW := by
          rw [Nat.div_lt_iff_lt_mul hch]
          calc i % img.stride < effW * ch := hoff
            _ = effW * ch := rfl
        have hcc : i % img.stride % ch < ch := Nat.mod_lt _ hch
        have hbyte := f5 (i / img.stride) hrow (i % img.stride / ch) hx
          (i % img.stride % ch) hcc
        have hsplit : i % img.stride / ch * ch + i % img.stride % ch
            = i % img.stride := by
          rw [mul_comm]
          exact Nat.div_add_mod _ _
        have hidx1 : i / img.stride * out.stride
              + i % img.stride / ch * out.channels + i % img.stride % ch
            = i / img.stride * (effW * ch) + i % img.stride := by
          rw [f4, f3]
          show i / img.stride * P.stride + i % img.stride / ch * P.channels
              + i % img.stride % ch = _
          rw [show P.stride = effW * ch from rfl, show P.channels = ch from rfl]
          rw [Nat.add_assoc, hsplit]
        have houtbyte : out.data.getD
            (i / img.stride * (effW * ch) + i % img.stride) 0
            = vals (i % img.stride % ch) := by
          rw [← hidx1]
          exact hbyte
        rw [houtbyte]
        have hiorig : img.stride * (i / img.stride) + i % img.stride = i :=
          Nat.div_add_mod i img.stride
        have horig : img.data.getD i 0 = vals (i % img.stride % ch) := by
          conv_lhs => rw [← hiorig]
          have := hconst (i / img.stride)
            (lt_of_lt_of_le hrow hHle)
            (i % img.stride / ch)
            (lt_of_lt_of_le hx hWle)
            (i % img.stride % ch) hcc
          rw [show img.stride * (i / img.stride) + i % img.stride
              = i / img.stride * img.stride + i % img.stride / ch * ch
                + i % img.stride % ch by
            rw [Nat.add_assoc, hsplit]; ring]
          exact this
        rw [horig]
      · rfl
    rw [hdata]
  
/-- Witness for C10: a 2×2 constant A8 image (value 7) with `sigma = 1`
is returned unchanged. -/
theorem c10_constant_image_witness :
    blur_image_inplace ⟨2, 2, 2, .a8, [7, 7, 7, 7]⟩ 1 (-1) (-1)
      = (.success, [7, 7, 7, 7]) :=
  c10_constant_image ⟨2, 2, 2, .a8, [7, 7, 7, 7]⟩ 1 (-1) (-1) (fun _ => 7) 1
    (by norm_num) rfl (by decide) (by decide)
  
end Blendend
